import Mathlib

/-!
# Consistent hashing ring

A shallow embedding of `consistent-hashing/main.go` and a verification of its
specification.

Modelling conventions.

* A Go `string` is a Lean `String`; its bytes are the UTF-8 encoding of its
  characters (`utf8Bytes`), which is how Go stores a string literal.
* A `uint32` position is a `Nat`; `hashKey` always returns a value below `2^32`.
  Positions are only compared, never added, so no wrap-around arithmetic occurs.
* The Go `map[uint32]string` is a partial function `Nat → Option String`; reading
  a missing key in Go yields the zero value `""` (`entry`).
* `sort.Search` is the binary search of the Go standard library, iterated with
  explicit fuel (`searchLoop`); `Search` supplies enough fuel
  (`searchLoop_fuel_stable`).
* `sort.Slice` with the comparison `<` on `uint32` yields the unique sorted
  permutation of the slice; it is modelled by `List.insertionSort (· ≤ ·)`.
* Slice accesses are total in the main embedding (`List.getD`); the section
  "Bounds-checked reading of the code" repeats the search, `GetNode` and
  `RemoveNode` with the run-time bounds checks of Go, and `index_safety` shows
  that the checks never fail.
* The `sync.RWMutex` is not modelled: every operation holds the lock for its
  whole body, so operations are atomic state transformers.
-/

namespace ConsistentHashing

/-! ## `hashKey`: CRC-32 (IEEE) of the bytes of the key -/

/-- One shift step of the reflected CRC-32 with the IEEE polynomial `0xEDB88320`. -/
def crcBit (c : Nat) : Nat :=
  if c % 2 = 1 then (c / 2) ^^^ 0xEDB88320 else c / 2

/-- Feed one byte into the CRC register: xor it in, then eight shift steps. -/
def crcByte (c b : Nat) : Nat :=
  crcBit (crcBit (crcBit (crcBit (crcBit (crcBit (crcBit (crcBit (c ^^^ b))))))))

/-- The UTF-8 encoding of one character, as a list of bytes. -/
def utf8Bytes (c : Char) : List Nat :=
  let n := c.toNat
  if n < 0x80 then [n]
  else if n < 0x800 then [0xC0 + n / 64, 0x80 + n % 64]
  else if n < 0x10000 then [0xE0 + n / 4096, 0x80 + n / 64 % 64, 0x80 + n % 64]
  else [0xF0 + n / 262144, 0x80 + n / 4096 % 64, 0x80 + n / 64 % 64, 0x80 + n % 64]

/-- The function `crc32.ChecksumIEEE`: register initialised to `0xFFFFFFFF`, every byte fed
through `crcByte`, final xor with `0xFFFFFFFF`. -/
def ChecksumIEEE (bytes : List Nat) : Nat :=
  (bytes.foldl crcByte 0xFFFFFFFF) ^^^ 0xFFFFFFFF

/-- The function `hashKey(key) = crc32.ChecksumIEEE([]byte(key))`. -/
def hashKey (key : String) : Nat :=
  ChecksumIEEE (key.data.flatMap utf8Bytes)

/-- The function `strconv.Itoa` on the non-negative loop indices: the decimal numeral. -/
def Itoa (i : Nat) : String := Nat.repr i

/-! ## `sort.Search` -/

/-- The loop of `sort.Search`: `for i < j { h := (i+j)/2; if !f(h) { i = h+1 } else { j = h } }`,
returning `i`.  The first argument bounds the number of iterations. -/
def searchLoop (f : Nat → Bool) : Nat → Nat → Nat → Nat
  | 0, i, _ => i
  | fuel + 1, i, j =>
    if i < j then
      let h := (i + j) / 2
      if !f h then searchLoop f fuel (h + 1) j else searchLoop f fuel i h
    else i

/-- The function `sort.Search(n, f)`: binary search on `[0, n)` starting from `i, j := 0, n`. -/
def Search (n : Nat) (f : Nat → Bool) : Nat := searchLoop f n 0 n

/-! ## The ring -/

/-- The struct `ConsistentHash` (without its mutex). -/
structure ConsistentHash where
  /-- Map from hash to node (server). -/
  hashCircle : Nat → Option String
  /-- Sorted list of hashes on the ring. -/
  sortedHashes : List Nat
  /-- Number of virtual nodes per physical node. -/
  replicas : Int

/-- Reading `ch.hashCircle[p]`: the stored owner, or the zero value `""` for a missing key. -/
def entry (ch : ConsistentHash) (p : Nat) : String := (ch.hashCircle p).getD ""

/-- The function `NewConsistentHash`. -/
def NewConsistentHash (replicas : Int) : ConsistentHash :=
  { hashCircle := fun _ => none, sortedHashes := [], replicas := replicas }

/-- The key `node + strconv.Itoa(i)` of the `i`-th virtual node. -/
def virtualNodeKey (node : String) (i : Nat) : String := node ++ Itoa i

/-- One iteration of the loop of `AddNode`: write the owner, append the hash. -/
def addStep (node : String) (ch : ConsistentHash) (i : Nat) : ConsistentHash :=
  let hash := hashKey (virtualNodeKey node i)
  { ch with
    hashCircle := fun p => if p = hash then some node else ch.hashCircle p
    sortedHashes := ch.sortedHashes ++ [hash] }

/-- The method `AddNode`: the loop `for i := 0; i < ch.replicas; i++`, then the sort. -/
def AddNode (ch : ConsistentHash) (node : String) : ConsistentHash :=
  let ch1 := (List.range ch.replicas.toNat).foldl (addStep node) ch
  { ch1 with sortedHashes := ch1.sortedHashes.insertionSort (· ≤ ·) }

/-- The index computed in `RemoveNode` and `GetNode`:
`sort.Search(len(sortedHashes), func(i) { return sortedHashes[i] >= hash })`. -/
def searchHash (l : List Nat) (hash : Nat) : Nat :=
  Search l.length (fun i => decide (hash ≤ l.getD i 0))

/-- One iteration of the loop of `RemoveNode`: delete the map key, then splice the hash out
of `sortedHashes` when the search finds it. -/
def removeStep (node : String) (ch : ConsistentHash) (i : Nat) : ConsistentHash :=
  let hash := hashKey (virtualNodeKey node i)
  let hashCircle := fun p => if p = hash then none else ch.hashCircle p
  let index := searchHash ch.sortedHashes hash
  if index < ch.sortedHashes.length ∧ ch.sortedHashes.getD index 0 = hash then
    { ch with
      hashCircle := hashCircle
      sortedHashes := ch.sortedHashes.take index ++ ch.sortedHashes.drop (index + 1) }
  else
    { ch with hashCircle := hashCircle }

/-- The method `RemoveNode`. -/
def RemoveNode (ch : ConsistentHash) (node : String) : ConsistentHash :=
  (List.range ch.replicas.toNat).foldl (removeStep node) ch

/-- The index `GetNode` reads on a non-empty ring: the search result, wrapped to `0` when it
reaches the end of the slice. -/
def resolveIndex (l : List Nat) (hash : Nat) : Nat :=
  let idx := searchHash l hash
  if idx = l.length then 0 else idx

/-- The position `sortedHashes[idx]` that `GetNode` resolves a hash to. -/
def resolvePosition (l : List Nat) (hash : Nat) : Nat :=
  l.getD (resolveIndex l hash) 0

/-- The method `GetNode`. -/
def GetNode (ch : ConsistentHash) (key : String) : String :=
  if ch.sortedHashes.length = 0 then ""
  else entry ch (resolvePosition ch.sortedHashes (hashKey key))

/-! ## Call sequences -/

/-- A mutating call on the ring. -/
inductive Op where
  | add (node : String)
  | remove (node : String)
  deriving DecidableEq

/-- Perform one call. -/
def applyOp (ch : ConsistentHash) : Op → ConsistentHash
  | Op.add node => AddNode ch node
  | Op.remove node => RemoveNode ch node

/-- The state reached from `NewConsistentHash replicas` by the calls `ops`, in order. -/
def run (replicas : Int) (ops : List Op) : ConsistentHash :=
  ops.foldl applyOp (NewConsistentHash replicas)

/-- The virtual-node positions `hashKey(node + Itoa(i))`, `i` in `[0, replicas)`, in loop order. -/
def nodePositions (replicas : Int) (node : String) : List Nat :=
  (List.range replicas.toNat).map (fun i => hashKey (virtualNodeKey node i))

/-- The ring built by `main`: three replicas, nodes `Server1`, `Server2`, `Server3`. -/
def mainRing : ConsistentHash :=
  run 3 [Op.add "Server1", Op.add "Server2", Op.add "Server3"]

/-! ## Specification vocabulary -/

/-- The successor of `hash` on the ring `l`, in the words of the specification: `p` is
registered, and it is the smallest registered position `≥ hash` when one exists, otherwise
(wrap-around) the smallest registered position. -/
def IsSuccessor (l : List Nat) (hash p : Nat) : Prop :=
  p ∈ l ∧ ((hash ≤ p ∧ ∀ x ∈ l, hash ≤ x → p ≤ x) ∨ ((∀ x ∈ l, x < hash) ∧ ∀ x ∈ l, p ≤ x))

/-- The node `Y` has been added and not subsequently removed by the calls `ops`: the last
call among `AddNode Y` and `RemoveNode Y` exists and is `AddNode Y`. -/
def isLive (ops : List Op) (Y : String) : Bool :=
  ops.foldl
    (fun live op => if op = Op.add Y then true else if op = Op.remove Y then false else live)
    false

/-! ## Bounds-checked reading of the code

The same code with every slice access `s[i]` and every slice expression `s[:i]`, `s[i+1:]`
checked against the length of the slice, as the Go runtime does: `none` stands for the
run-time failure `index out of range` (and for a search that runs out of iterations). -/

/-- The loop of `sort.Search` over a predicate that may fail. -/
def searchLoopChecked (f : Nat → Option Bool) : Nat → Nat → Nat → Option Nat
  | 0, i, j => if i < j then none else some i
  | fuel + 1, i, j =>
    if i < j then
      let h := (i + j) / 2
      match f h with
      | none => none
      | some b =>
        if !b then searchLoopChecked f fuel (h + 1) j else searchLoopChecked f fuel i h
    else some i

/-- The function `sort.Search(n, f)` over a predicate that may fail. -/
def SearchChecked (n : Nat) (f : Nat → Option Bool) : Option Nat := searchLoopChecked f n 0 n

/-- The search of `RemoveNode` and `GetNode`, the closure reading `sortedHashes[i]` with a
bounds check. -/
def searchHashChecked (l : List Nat) (hash : Nat) : Option Nat :=
  SearchChecked l.length (fun i => (l.get? i).map fun x => decide (hash ≤ x))

/-- The slice expression `append(s[:index], s[index+1:]...)`: it needs `index + 1 ≤ len(s)`. -/
def spliceChecked (l : List Nat) (index : Nat) : Option (List Nat) :=
  if index + 1 ≤ l.length then some (l.take index ++ l.drop (index + 1)) else none

/-- One iteration of the loop of `RemoveNode`, bounds-checked. The guard
`index < len(sortedHashes) && sortedHashes[index] == hash` reads the slice only when its
first half holds. -/
def removeStepChecked (node : String) (ch : ConsistentHash) (i : Nat) : Option ConsistentHash :=
  let hash := hashKey (virtualNodeKey node i)
  let hashCircle := fun p => if p = hash then none else ch.hashCircle p
  match searchHashChecked ch.sortedHashes hash with
  | none => none
  | some index =>
    if index < ch.sortedHashes.length then
      match ch.sortedHashes.get? index with
      | none => none
      | some x =>
        if x = hash then
          match spliceChecked ch.sortedHashes index with
          | none => none
          | some l => some { ch with hashCircle := hashCircle, sortedHashes := l }
        else some { ch with hashCircle := hashCircle }
    else some { ch with hashCircle := hashCircle }

/-- The loop `for i := 0; i < ch.replicas; i++` of `RemoveNode`, bounds-checked, over the
indices still to visit. -/
def removeLoopChecked (node : String) : List Nat → ConsistentHash → Option ConsistentHash
  | [], ch => some ch
  | i :: is, ch =>
    match removeStepChecked node ch i with
    | none => none
    | some ch1 => removeLoopChecked node is ch1

/-- The method `RemoveNode`, bounds-checked. -/
def RemoveNodeChecked (ch : ConsistentHash) (node : String) : Option ConsistentHash :=
  removeLoopChecked node (List.range ch.replicas.toNat) ch

/-- The method `GetNode`, bounds-checked. -/
def GetNodeChecked (ch : ConsistentHash) (key : String) : Option String :=
  if ch.sortedHashes.length = 0 then some ""
  else
    match searchHashChecked ch.sortedHashes (hashKey key) with
    | none => none
    | some idx =>
      let idx := if idx = ch.sortedHashes.length then 0 else idx
      match ch.sortedHashes.get? idx with
      | none => none
      | some p => some (entry ch p)

set_option maxRecDepth 100000

/-! ## The hash function -/

/-- The standard check value of CRC-32/IEEE: the checksum of the ASCII string `123456789`. -/
theorem hashKey_check_value : hashKey "123456789" = 0xCBF43926 := by decide

/-- The hash values of the five demonstration keys of `main`. -/
theorem hashKey_main_keys :
    ["Key1", "Key2", "Key3", "Key4", "Key5"].map hashKey =
      [2356071278, 359111380, 1650502210, 4228136929, 2332233591] := by decide

theorem crcBit_lt {c : Nat} (h : c < 2 ^ 32) : crcBit c < 2 ^ 32 := by
  unfold crcBit
  split
  · exact Nat.xor_lt_two_pow (by omega) (by norm_num)
  · omega

theorem crcByte_lt {c b : Nat} (hc : c < 2 ^ 32) (hb : b < 256) : crcByte c b < 2 ^ 32 := by
  unfold crcByte
  have h0 : c ^^^ b < 2 ^ 32 := Nat.xor_lt_two_pow hc (by omega)
  exact crcBit_lt (crcBit_lt (crcBit_lt (crcBit_lt (crcBit_lt (crcBit_lt (crcBit_lt
    (crcBit_lt h0)))))))

theorem utf8Bytes_lt (c : Char) : ∀ b ∈ utf8Bytes c, b < 256 := by
  intro b hb
  have hv : c.toNat < 0x110000 := by
    have := c.valid
    unfold Char.toNat
    rcases this with h | h
    · have : c.val.toNat < 0xd800 := h
      omega
    · have : c.val.toNat < 0x110000 := h.2
      omega
  unfold utf8Bytes at hb
  dsimp only at hb
  split at hb
  · simp at hb; omega
  · split at hb
    · simp at hb; omega
    · split at hb
      · simp at hb; omega
      · simp at hb; omega

theorem foldl_crcByte_lt (bytes : List Nat) (hb : ∀ b ∈ bytes, b < 256) :
    ∀ c, c < 2 ^ 32 → bytes.foldl crcByte c < 2 ^ 32 := by
  induction bytes with
  | nil => intro c hc; exact hc
  | cons b bs ih =>
    intro c hc
    rw [List.foldl_cons]
    exact ih (fun x hx => hb x (List.mem_cons_of_mem b hx)) _
      (crcByte_lt hc (hb b (List.mem_cons_self b bs)))

/-- Positions fit in a `uint32`. -/
theorem hashKey_lt (key : String) : hashKey key < 2 ^ 32 := by
  unfold hashKey ChecksumIEEE
  apply Nat.xor_lt_two_pow _ (by norm_num)
  apply foldl_crcByte_lt _ _ _ (by norm_num)
  intro b hb
  obtain ⟨c, _, hc⟩ := List.mem_flatMap.mp hb
  exact utf8Bytes_lt c b hc

/-- The ring built by `main`: the nine positions in ascending order. -/
theorem mainRing_sortedHashes :
    mainRing.sortedHashes = [41557142, 693587797, 810319380, 2608024876, 2839883694,
      2958958319, 3344510585, 3728875320, 3967057338] := by decide

/-! ## Binary search -/

theorem searchLoop_fuel_stable (f : Nat → Bool) :
    ∀ fuel i j k, j - i ≤ fuel → searchLoop f (fuel + k) i j = searchLoop f fuel i j := by
  intro fuel
  induction fuel with
  | zero =>
    intro i j k h
    cases k with
    | zero => rfl
    | succ k =>
      have hij : ¬ i < j := by omega
      simp [searchLoop, hij]
  | succ fuel ih =>
    intro i j k h
    rw [show fuel + 1 + k = (fuel + k) + 1 by omega]
    unfold searchLoop
    by_cases hij : i < j
    · simp only [hij, if_true]
      by_cases hf : f ((i + j) / 2) = true
      · simp only [hf, Bool.not_true, Bool.false_eq_true, if_false]
        exact ih _ _ _ (by omega)
      · simp only [Bool.not_eq_true] at hf
        simp only [hf, Bool.not_false, if_true]
        exact ih _ _ _ (by omega)
    · simp [hij]

theorem searchLoop_spec (f : Nat → Bool) (n : Nat)
    (hmono : ∀ a b, a ≤ b → b < n → f a = true → f b = true) :
    ∀ fuel i j, j - i ≤ fuel → i ≤ j → j ≤ n → (∀ k, k < i → f k = false) →
      (∀ k, j ≤ k → k < n → f k = true) →
      i ≤ searchLoop f fuel i j ∧ searchLoop f fuel i j ≤ j ∧
        (∀ k, k < searchLoop f fuel i j → f k = false) ∧
        (∀ k, searchLoop f fuel i j ≤ k → k < n → f k = true) := by
  intro fuel
  induction fuel with
  | zero =>
    intro i j h hij _ hlo hhi
    have : i = j := by omega
    subst this
    simp only [searchLoop]
    exact ⟨le_refl _, le_refl _, hlo, hhi⟩
  | succ fuel ih =>
    intro i j h hij hjn hlo hhi
    unfold searchLoop
    by_cases hlt : i < j
    · simp only [hlt, if_true]
      have hh1 : i ≤ (i + j) / 2 := by omega
      have hh2 : (i + j) / 2 < j := by omega
      by_cases hf : f ((i + j) / 2) = true
      · simp only [hf, Bool.not_true, Bool.false_eq_true, if_false]
        have := ih i ((i + j) / 2) (by omega) hh1 (by omega) hlo
          (fun k hk hkn => hmono _ _ hk hkn hf)
        exact ⟨this.1, by omega, this.2.2.1, this.2.2.2⟩
      · simp only [Bool.not_eq_true] at hf
        simp only [hf, Bool.not_false, if_true]
        have hlo2 : ∀ k, k < (i + j) / 2 + 1 → f k = false := by
          intro k hk
          by_contra hc
          simp only [Bool.not_eq_false] at hc
          have := hmono k ((i + j) / 2) (by omega) (by omega) hc
          rw [hf] at this
          exact absurd this (by decide)
        have := ih ((i + j) / 2 + 1) j (by omega) (by omega) hjn hlo2 hhi
        exact ⟨by omega, this.2.1, this.2.2.1, this.2.2.2⟩
    · simp only [hlt, if_false]
      have : i = j := by omega
      subst this
      exact ⟨le_refl _, le_refl _, hlo, hhi⟩

theorem sorted_getD_le {l : List Nat} (hs : l.Sorted (· ≤ ·)) {a b : Nat} (hab : a ≤ b)
    (hb : b < l.length) : l.getD a 0 ≤ l.getD b 0 := by
  have ha : a < l.length := lt_of_le_of_lt hab hb
  rw [List.getD_eq_getElem l 0 ha, List.getD_eq_getElem l 0 hb]
  exact hs.rel_get_of_le (a := ⟨a, ha⟩) (b := ⟨b, hb⟩) hab

theorem searchHash_spec {l : List Nat} (hs : l.Sorted (· ≤ ·)) (hash : Nat) :
    searchHash l hash ≤ l.length ∧
      (∀ k, k < searchHash l hash → l.getD k 0 < hash) ∧
      (∀ k, searchHash l hash ≤ k → k < l.length → hash ≤ l.getD k 0) := by
  have h := searchLoop_spec (fun i => decide (hash ≤ l.getD i 0)) l.length
    (by
      intro a b hab hb ha
      simp only [decide_eq_true_eq] at ha ⊢
      exact le_trans ha (sorted_getD_le hs hab hb))
    l.length 0 l.length (by omega) (Nat.zero_le _) (le_refl _)
    (by intro k hk; omega) (by intro k h1 h2; omega)
  refine ⟨h.2.1, ?_, ?_⟩
  · intro k hk
    have := h.2.2.1 k hk
    simp only [decide_eq_false_iff_not, not_le] at this
    exact this
  · intro k hk hkl
    have := h.2.2.2 k hk hkl
    simp only [decide_eq_true_eq] at this
    exact this

theorem mem_iff_getD {l : List Nat} {x : Nat} :
    x ∈ l ↔ ∃ k, k < l.length ∧ l.getD k 0 = x := by
  constructor
  · intro h
    obtain ⟨k, hk, hx⟩ := List.mem_iff_getElem.mp h
    exact ⟨k, hk, by rw [List.getD_eq_getElem l 0 hk]; exact hx⟩
  · rintro ⟨k, hk, hx⟩
    rw [List.getD_eq_getElem l 0 hk] at hx
    exact List.mem_iff_getElem.mpr ⟨k, hk, hx⟩


/-! ## One removal step on a sorted slice -/

theorem removeStep_hashCircle (node : String) (ch : ConsistentHash) (i : Nat) :
    (removeStep node ch i).hashCircle =
      fun p => if p = hashKey (virtualNodeKey node i) then none else ch.hashCircle p := by
  unfold removeStep
  dsimp only
  split <;> rfl

theorem removeStep_replicas (node : String) (ch : ConsistentHash) (i : Nat) :
    (removeStep node ch i).replicas = ch.replicas := by
  unfold removeStep
  dsimp only
  split <;> rfl

theorem splice_eq_erase {l : List Nat} (hs : l.Sorted (· ≤ ·)) (hash : Nat) :
    (if searchHash l hash < l.length ∧ l.getD (searchHash l hash) 0 = hash then
        l.take (searchHash l hash) ++ l.drop (searchHash l hash + 1)
      else l) = l.erase hash := by
  obtain ⟨hle, hlo, hhi⟩ := searchHash_spec hs hash
  generalize searchHash l hash = r at hle hlo hhi
  split
  · rename_i hc
    obtain ⟨hr, hv⟩ := hc
    have hnot : hash ∉ l.take r := by
      intro hm
      obtain ⟨k, hk, hx⟩ := List.mem_iff_getElem.mp hm
      have hk2 : k < r := by
        rw [List.length_take] at hk
        omega
      have := hlo k hk2
      rw [List.getD_eq_getElem l 0 (by omega)] at this
      rw [List.getElem_take] at hx
      omega
    have hsplit : l = l.take r ++ hash :: l.drop (r + 1) := by
      conv_lhs => rw [← List.take_append_drop r l]
      rw [List.drop_eq_getElem_cons hr]
      rw [List.getD_eq_getElem l 0 hr] at hv
      rw [hv]
    conv_rhs => rw [hsplit]
    rw [List.erase_append_right _ hnot, List.erase_cons_head]
  · rename_i hc
    symm
    apply List.erase_of_not_mem
    intro hm
    obtain ⟨k, hk, hx⟩ := mem_iff_getD.mp hm
    by_cases hkr : k < r
    · have := hlo k hkr
      omega
    · have hr : r < l.length := by omega
      have h1 := hhi r (le_refl _) hr
      have h2 := sorted_getD_le hs (Nat.le_of_not_lt hkr) hk
      exact hc ⟨hr, by omega⟩

theorem removeStep_sortedHashes {ch : ConsistentHash} (hs : ch.sortedHashes.Sorted (· ≤ ·))
    (node : String) (i : Nat) :
    (removeStep node ch i).sortedHashes =
      ch.sortedHashes.erase (hashKey (virtualNodeKey node i)) := by
  rw [← splice_eq_erase hs]
  unfold removeStep
  dsimp only
  split <;> rfl

theorem sorted_erase {l : List Nat} (hs : l.Sorted (· ≤ ·)) (a : Nat) :
    (l.erase a).Sorted (· ≤ ·) :=
  List.Pairwise.sublist (List.erase_sublist a l) hs

theorem sorted_diff {l : List Nat} (hs : l.Sorted (· ≤ ·)) (t : List Nat) :
    (l.diff t).Sorted (· ≤ ·) :=
  List.Pairwise.sublist (List.diff_sublist l t) hs

theorem foldl_removeStep (node : String) :
    ∀ (is : List Nat) (ch : ConsistentHash), ch.sortedHashes.Sorted (· ≤ ·) →
      (is.foldl (removeStep node) ch).sortedHashes =
          ch.sortedHashes.diff (is.map fun i => hashKey (virtualNodeKey node i)) ∧
        (is.foldl (removeStep node) ch).hashCircle =
          (fun p => if p ∈ is.map (fun i => hashKey (virtualNodeKey node i)) then none
            else ch.hashCircle p) ∧
        (is.foldl (removeStep node) ch).replicas = ch.replicas := by
  intro is
  induction is with
  | nil => intro ch _; simp
  | cons i is ih =>
    intro ch hs
    have hs1 : (removeStep node ch i).sortedHashes.Sorted (· ≤ ·) := by
      rw [removeStep_sortedHashes hs]
      exact sorted_erase hs _
    obtain ⟨h1, h2, h3⟩ := ih (removeStep node ch i) hs1
    rw [List.foldl_cons]
    refine ⟨?_, ?_, ?_⟩
    · rw [h1, removeStep_sortedHashes hs, List.map_cons, List.diff_cons]
    · rw [h2, removeStep_hashCircle]
      funext p
      simp only [List.map_cons, List.mem_cons]
      by_cases hp : p = hashKey (virtualNodeKey node i)
      · simp [hp]
      · simp [hp]
    · rw [h3, removeStep_replicas]

theorem RemoveNode_replicas (ch : ConsistentHash) (node : String) :
    (RemoveNode ch node).replicas = ch.replicas := by
  unfold RemoveNode
  generalize List.range ch.replicas.toNat = is
  induction is generalizing ch with
  | nil => rfl
  | cons i is ih => rw [List.foldl_cons, ih, removeStep_replicas]

theorem RemoveNode_hashCircle (ch : ConsistentHash) (node : String) (p : Nat) :
    (RemoveNode ch node).hashCircle p =
      if p ∈ nodePositions ch.replicas node then none else ch.hashCircle p := by
  unfold RemoveNode nodePositions
  generalize List.range ch.replicas.toNat = is
  induction is generalizing ch with
  | nil => simp
  | cons i is ih =>
    rw [List.foldl_cons, ih, removeStep_hashCircle]
    simp only [List.map_cons, List.mem_cons]
    by_cases hp : p = hashKey (virtualNodeKey node i)
    · simp [hp]
    · simp [hp]

theorem RemoveNode_sortedHashes {ch : ConsistentHash} (hs : ch.sortedHashes.Sorted (· ≤ ·))
    (node : String) :
    (RemoveNode ch node).sortedHashes = ch.sortedHashes.diff (nodePositions ch.replicas node) :=
  (foldl_removeStep node _ ch hs).1

/-! ## `AddNode` -/

theorem foldl_addStep (node : String) :
    ∀ (is : List Nat) (ch : ConsistentHash),
      (is.foldl (addStep node) ch).sortedHashes =
          ch.sortedHashes ++ (is.map fun i => hashKey (virtualNodeKey node i)) ∧
        (is.foldl (addStep node) ch).hashCircle =
          (fun p => if p ∈ is.map (fun i => hashKey (virtualNodeKey node i)) then some node
            else ch.hashCircle p) ∧
        (is.foldl (addStep node) ch).replicas = ch.replicas := by
  intro is
  induction is with
  | nil => intro ch; simp
  | cons i is ih =>
    intro ch
    obtain ⟨h1, h2, h3⟩ := ih (addStep node ch i)
    rw [List.foldl_cons]
    refine ⟨?_, ?_, ?_⟩
    · rw [h1]
      simp [addStep]
    · rw [h2]
      funext p
      simp only [addStep, List.map_cons, List.mem_cons]
      by_cases hp : p = hashKey (virtualNodeKey node i)
      · simp [hp]
      · simp [hp]
    · rw [h3]
      rfl

theorem AddNode_replicas (ch : ConsistentHash) (node : String) :
    (AddNode ch node).replicas = ch.replicas :=
  (foldl_addStep node _ ch).2.2

theorem AddNode_hashCircle (ch : ConsistentHash) (node : String) (p : Nat) :
    (AddNode ch node).hashCircle p =
      if p ∈ nodePositions ch.replicas node then some node else ch.hashCircle p := by
  have := (foldl_addStep node (List.range ch.replicas.toNat) ch).2.1
  unfold AddNode nodePositions
  dsimp only
  rw [this]

theorem AddNode_sortedHashes (ch : ConsistentHash) (node : String) :
    (AddNode ch node).sortedHashes =
      (ch.sortedHashes ++ nodePositions ch.replicas node).insertionSort (· ≤ ·) := by
  have := (foldl_addStep node (List.range ch.replicas.toNat) ch).1
  unfold AddNode nodePositions
  dsimp only
  rw [this]

theorem AddNode_sorted (ch : ConsistentHash) (node : String) :
    (AddNode ch node).sortedHashes.Sorted (· ≤ ·) := by
  rw [AddNode_sortedHashes]
  exact List.sorted_insertionSort _ _

theorem mem_AddNode_sortedHashes (ch : ConsistentHash) (node : String) (p : Nat) :
    p ∈ (AddNode ch node).sortedHashes ↔
      p ∈ ch.sortedHashes ∨ p ∈ nodePositions ch.replicas node := by
  rw [AddNode_sortedHashes, List.mem_insertionSort, List.mem_append]

theorem RemoveNode_sorted {ch : ConsistentHash} (hs : ch.sortedHashes.Sorted (· ≤ ·))
    (node : String) : (RemoveNode ch node).sortedHashes.Sorted (· ≤ ·) := by
  rw [RemoveNode_sortedHashes hs]
  exact sorted_diff hs _


/-! ## Successor search -/

theorem IsSuccessor.unique {l : List Nat} {hash p q : Nat} (hp : IsSuccessor l hash p)
    (hq : IsSuccessor l hash q) : p = q := by
  obtain ⟨hpl, hp⟩ := hp
  obtain ⟨hql, hq⟩ := hq
  rcases hp with ⟨hp1, hp2⟩ | ⟨hp1, hp2⟩ <;> rcases hq with ⟨hq1, hq2⟩ | ⟨hq1, hq2⟩
  · exact le_antisymm (hp2 q hql hq1) (hq2 p hpl hp1)
  · have := hq1 p hpl
    omega
  · have := hp1 q hql
    omega
  · exact le_antisymm (hp2 q hql) (hq2 p hpl)

theorem IsSuccessor.mono {l l' : List Nat} {hash p : Nat} (hsub : ∀ x ∈ l', x ∈ l)
    (hp' : p ∈ l') (hp : IsSuccessor l hash p) : IsSuccessor l' hash p := by
  obtain ⟨_, hp⟩ := hp
  refine ⟨hp', ?_⟩
  rcases hp with ⟨hp1, hp2⟩ | ⟨hp1, hp2⟩
  · exact Or.inl ⟨hp1, fun x hx hle => hp2 x (hsub x hx) hle⟩
  · exact Or.inr ⟨fun x hx => hp1 x (hsub x hx), fun x hx => hp2 x (hsub x hx)⟩

theorem resolvePosition_isSuccessor {l : List Nat} (hs : l.Sorted (· ≤ ·)) (hne : l ≠ [])
    (hash : Nat) : IsSuccessor l hash (resolvePosition l hash) := by
  obtain ⟨hle, hlo, hhi⟩ := searchHash_spec hs hash
  have hpos : 0 < l.length := List.length_pos.mpr hne
  unfold resolvePosition resolveIndex
  dsimp only
  generalize searchHash l hash = r at hle hlo hhi
  by_cases hr : r = l.length
  · rw [if_pos hr]
    refine ⟨mem_iff_getD.mpr ⟨0, hpos, rfl⟩, Or.inr ⟨?_, ?_⟩⟩
    · intro x hx
      obtain ⟨k, hk, hkx⟩ := mem_iff_getD.mp hx
      rw [← hkx]
      exact hlo k (by omega)
    · intro x hx
      obtain ⟨k, hk, hkx⟩ := mem_iff_getD.mp hx
      rw [← hkx]
      exact sorted_getD_le hs (Nat.zero_le k) hk
  · rw [if_neg hr]
    have hrl : r < l.length := by omega
    refine ⟨mem_iff_getD.mpr ⟨r, hrl, rfl⟩, Or.inl ⟨hhi r (le_refl _) hrl, ?_⟩⟩
    intro x hx hle
    obtain ⟨k, hk, hkx⟩ := mem_iff_getD.mp hx
    rw [← hkx]
    by_cases hkr : k < r
    · have := hlo k hkr
      omega
    · exact sorted_getD_le hs (Nat.le_of_not_lt hkr) hk

theorem resolvePosition_eq {l : List Nat} (hs : l.Sorted (· ≤ ·)) {hash p : Nat}
    (hp : IsSuccessor l hash p) : resolvePosition l hash = p :=
  (resolvePosition_isSuccessor hs (List.ne_nil_of_mem hp.1) hash).unique hp

theorem GetNode_of_nil {ch : ConsistentHash} (h : ch.sortedHashes = []) (key : String) :
    GetNode ch key = "" := by
  simp [GetNode, h]

theorem GetNode_of_ne_nil {ch : ConsistentHash} (h : ch.sortedHashes ≠ []) (key : String) :
    GetNode ch key = entry ch (resolvePosition ch.sortedHashes (hashKey key)) := by
  have : ch.sortedHashes.length ≠ 0 := fun hc => h (List.length_eq_zero.mp hc)
  simp [GetNode, this]

theorem GetNode_of_isSuccessor {ch : ConsistentHash} (hs : ch.sortedHashes.Sorted (· ≤ ·))
    {key : String} {p : Nat} (hp : IsSuccessor ch.sortedHashes (hashKey key) p) :
    GetNode ch key = entry ch p := by
  rw [GetNode_of_ne_nil (List.ne_nil_of_mem hp.1), resolvePosition_eq hs hp]

/-- Two sorted rings with the same registered positions and the same owners resolve every
key alike. -/
theorem GetNode_congr {ch ch' : ConsistentHash} (hs : ch.sortedHashes.Sorted (· ≤ ·))
    (hs' : ch'.sortedHashes.Sorted (· ≤ ·))
    (hmem : ∀ x, x ∈ ch'.sortedHashes ↔ x ∈ ch.sortedHashes)
    (hent : ∀ p ∈ ch.sortedHashes, entry ch' p = entry ch p) (key : String) :
    GetNode ch' key = GetNode ch key := by
  by_cases hne : ch.sortedHashes = []
  · have hne' : ch'.sortedHashes = [] := by
      apply List.eq_nil_iff_forall_not_mem.mpr
      intro x hx
      have := (hmem x).mp hx
      rw [hne] at this
      exact absurd this (List.not_mem_nil x)
    rw [GetNode_of_nil hne, GetNode_of_nil hne']
  · have hsucc := resolvePosition_isSuccessor hs hne (hashKey key)
    have hsucc' : IsSuccessor ch'.sortedHashes (hashKey key)
        (resolvePosition ch.sortedHashes (hashKey key)) :=
      hsucc.mono (fun x hx => (hmem x).mp hx) ((hmem _).mpr hsucc.1)
    rw [GetNode_of_isSuccessor hs hsucc, GetNode_of_isSuccessor hs' hsucc']
    exact hent _ hsucc.1

/-- Removing a node leaves the owner of every key whose resolved position is not one of the
removed node's positions. -/
theorem GetNode_RemoveNode_of_not_mem {ch : ConsistentHash} (hs : ch.sortedHashes.Sorted (· ≤ ·))
    (node key : String)
    (h : ch.sortedHashes ≠ [] →
      resolvePosition ch.sortedHashes (hashKey key) ∉ nodePositions ch.replicas node) :
    GetNode (RemoveNode ch node) key = GetNode ch key := by
  by_cases hne : ch.sortedHashes = []
  · have : (RemoveNode ch node).sortedHashes = [] := by
      rw [RemoveNode_sortedHashes hs, hne]
      exact List.eq_nil_of_subset_nil (List.diff_subset _ _)
    rw [GetNode_of_nil hne, GetNode_of_nil this]
  · have hsucc := resolvePosition_isSuccessor hs hne (hashKey key)
    have hnot := h hne
    have hmem : resolvePosition ch.sortedHashes (hashKey key) ∈ (RemoveNode ch node).sortedHashes := by
      rw [RemoveNode_sortedHashes hs]
      exact List.mem_diff_of_mem hsucc.1 hnot
    have hsucc' : IsSuccessor (RemoveNode ch node).sortedHashes (hashKey key)
        (resolvePosition ch.sortedHashes (hashKey key)) := by
      refine hsucc.mono ?_ hmem
      intro x hx
      rw [RemoveNode_sortedHashes hs] at hx
      exact List.diff_subset _ _ hx
    rw [GetNode_of_isSuccessor (RemoveNode_sorted hs node) hsucc', GetNode_of_isSuccessor hs hsucc]
    unfold entry
    rw [RemoveNode_hashCircle, if_neg hnot]

/-- Adding a node either leaves the owner of a key or hands the key to the new node. -/
theorem GetNode_AddNode_cases {ch : ConsistentHash} (hs : ch.sortedHashes.Sorted (· ≤ ·))
    (node key : String) :
    GetNode (AddNode ch node) key = GetNode ch key ∨ GetNode (AddNode ch node) key = node := by
  by_cases hne : (AddNode ch node).sortedHashes = []
  · left
    have : ch.sortedHashes = [] := by
      apply List.eq_nil_iff_forall_not_mem.mpr
      intro x hx
      have := (mem_AddNode_sortedHashes ch node x).mpr (Or.inl hx)
      rw [hne] at this
      exact absurd this (List.not_mem_nil x)
    rw [GetNode_of_nil hne, GetNode_of_nil this]
  · have hsucc := resolvePosition_isSuccessor (AddNode_sorted ch node) hne (hashKey key)
    rw [GetNode_of_isSuccessor (AddNode_sorted ch node) hsucc]
    generalize resolvePosition (AddNode ch node).sortedHashes (hashKey key) = p at hsucc
    by_cases hp : p ∈ nodePositions ch.replicas node
    · right
      unfold entry
      rw [AddNode_hashCircle, if_pos hp]
      rfl
    · left
      have hpl : p ∈ ch.sortedHashes := by
        rcases (mem_AddNode_sortedHashes ch node p).mp hsucc.1 with h | h
        · exact h
        · exact absurd h hp
      have hsucc' : IsSuccessor ch.sortedHashes (hashKey key) p :=
        hsucc.mono (fun x hx => (mem_AddNode_sortedHashes ch node x).mpr (Or.inl hx)) hpl
      rw [GetNode_of_isSuccessor hs hsucc']
      unfold entry
      rw [AddNode_hashCircle, if_neg hp]


/-! ## Reachable states -/

theorem run_snoc (R : Int) (ops : List Op) (op : Op) :
    run R (ops ++ [op]) = applyOp (run R ops) op := by
  simp [run, List.foldl_append]

theorem run_replicas (R : Int) (ops : List Op) : (run R ops).replicas = R := by
  induction ops using List.reverseRecOn with
  | nil => rfl
  | append_singleton ops op ih =>
    rw [run_snoc]
    cases op with
    | add node => exact (AddNode_replicas _ _).trans ih
    | remove node => exact (RemoveNode_replicas _ _).trans ih

theorem run_sorted (R : Int) (ops : List Op) : (run R ops).sortedHashes.Sorted (· ≤ ·) := by
  induction ops using List.reverseRecOn with
  | nil => exact List.sorted_nil
  | append_singleton ops op ih =>
    rw [run_snoc]
    cases op with
    | add node => exact AddNode_sorted _ _
    | remove node => exact RemoveNode_sorted ih _

/-- Every key of `hashCircle` occurs in `sortedHashes`. -/
theorem run_keys_mem (R : Int) (ops : List Op) (p : Nat)
    (h : (run R ops).hashCircle p ≠ none) : p ∈ (run R ops).sortedHashes := by
  induction ops using List.reverseRecOn with
  | nil => exact absurd rfl h
  | append_singleton ops op ih =>
    rw [run_snoc] at h ⊢
    cases op with
    | add node =>
      simp only [applyOp] at h ⊢
      rw [mem_AddNode_sortedHashes]
      rw [AddNode_hashCircle] at h
      by_cases hp : p ∈ nodePositions (run R ops).replicas node
      · exact Or.inr hp
      · rw [if_neg hp] at h
        exact Or.inl (ih h)
    | remove node =>
      simp only [applyOp] at h ⊢
      rw [RemoveNode_hashCircle] at h
      rw [RemoveNode_sortedHashes (run_sorted R ops)]
      by_cases hp : p ∈ nodePositions (run R ops).replicas node
      · rw [if_pos hp] at h
        exact absurd rfl h
      · rw [if_neg hp] at h
        exact List.mem_diff_of_mem (ih h) hp

/-- An owner recorded in `hashCircle` was added, at one of its own virtual-node positions. -/
theorem run_owner (R : Int) (ops : List Op) (p : Nat) (Y : String)
    (h : (run R ops).hashCircle p = some Y) : Op.add Y ∈ ops ∧ p ∈ nodePositions R Y := by
  induction ops using List.reverseRecOn with
  | nil => exact absurd h (by simp [run, NewConsistentHash])
  | append_singleton ops op ih =>
    rw [run_snoc] at h
    cases op with
    | add node =>
      simp only [applyOp] at h
      rw [AddNode_hashCircle, run_replicas] at h
      by_cases hp : p ∈ nodePositions R node
      · rw [if_pos hp] at h
        have : node = Y := Option.some.inj h
        subst this
        exact ⟨List.mem_append_right _ (List.mem_singleton_self _), hp⟩
      · rw [if_neg hp] at h
        exact ⟨List.mem_append_left _ (ih h).1, (ih h).2⟩
    | remove node =>
      simp only [applyOp] at h
      rw [RemoveNode_hashCircle, run_replicas] at h
      by_cases hp : p ∈ nodePositions R node
      · rw [if_pos hp] at h
        exact absurd h (by simp)
      · rw [if_neg hp] at h
        exact ⟨List.mem_append_left _ (ih h).1, (ih h).2⟩

/-- Every element of `sortedHashes` is a virtual-node position of some added node. -/
theorem run_origin (R : Int) (ops : List Op) (p : Nat) (h : p ∈ (run R ops).sortedHashes) :
    ∃ Y, Op.add Y ∈ ops ∧ p ∈ nodePositions R Y := by
  induction ops using List.reverseRecOn with
  | nil => exact absurd h (by simp [run, NewConsistentHash])
  | append_singleton ops op ih =>
    rw [run_snoc] at h
    cases op with
    | add node =>
      simp only [applyOp] at h
      rw [mem_AddNode_sortedHashes, run_replicas] at h
      rcases h with h | h
      · obtain ⟨Y, hY, hp⟩ := ih h
        exact ⟨Y, List.mem_append_left _ hY, hp⟩
      · exact ⟨node, List.mem_append_right _ (List.mem_singleton_self _), h⟩
    | remove node =>
      simp only [applyOp] at h
      rw [RemoveNode_sortedHashes (run_sorted R ops)] at h
      obtain ⟨Y, hY, hp⟩ := ih (List.diff_subset _ _ h)
      exact ⟨Y, List.mem_append_left _ hY, hp⟩

/-! ## C1: successor search with wrap-around -/

/-- C1. On a ring whose `sortedHashes` is non-empty and sorted in non-decreasing order,
`GetNode key` returns the `hashCircle` entry of a registered position `p` that is the smallest
element `≥ hashKey key` when such an element exists, and the smallest element of
`sortedHashes` when `hashKey key` is greater than every element. -/
theorem GetNode_resolves_successor (ch : ConsistentHash) (key : String)
    (hne : ch.sortedHashes ≠ []) (hs : ch.sortedHashes.Sorted (· ≤ ·)) :
    ∃ p, p ∈ ch.sortedHashes ∧ GetNode ch key = entry ch p ∧
      ((∃ x ∈ ch.sortedHashes, hashKey key ≤ x) →
        hashKey key ≤ p ∧ ∀ x ∈ ch.sortedHashes, hashKey key ≤ x → p ≤ x) ∧
      ((∀ x ∈ ch.sortedHashes, x < hashKey key) →
        (∀ x ∈ ch.sortedHashes, p ≤ x) ∧ p = ch.sortedHashes.getD 0 0) := by
  have hsucc := resolvePosition_isSuccessor hs hne (hashKey key)
  refine ⟨_, hsucc.1, GetNode_of_ne_nil hne key, ?_, ?_⟩
  · rintro ⟨x, hx, hle⟩
    rcases hsucc.2 with h | h
    · exact h
    · have := h.1 x hx
      omega
  · intro hall
    rcases hsucc.2 with h | h
    · have := hall _ hsucc.1
      omega
    · refine ⟨h.2, ?_⟩
      have hpos : 0 < ch.sortedHashes.length := List.length_pos.mpr hne
      have h0 : ch.sortedHashes.getD 0 0 ∈ ch.sortedHashes := mem_iff_getD.mpr ⟨0, hpos, rfl⟩
      obtain ⟨k, hk, hkx⟩ := mem_iff_getD.mp hsucc.1
      have h1 := sorted_getD_le hs (Nat.zero_le k) hk
      have h2 := h.2 _ h0
      omega

/-- C1 at the ring built by `main` and the key `Key4`, whose hash lies beyond the last
registered position, so that the search wraps around. -/
theorem GetNode_resolves_successor_witness :
    mainRing.sortedHashes ≠ [] ∧ mainRing.sortedHashes.Sorted (· ≤ ·) ∧
    ∃ p, p ∈ mainRing.sortedHashes ∧ GetNode mainRing "Key4" = entry mainRing p ∧
      ((∃ x ∈ mainRing.sortedHashes, hashKey "Key4" ≤ x) →
        hashKey "Key4" ≤ p ∧ ∀ x ∈ mainRing.sortedHashes, hashKey "Key4" ≤ x → p ≤ x) ∧
      ((∀ x ∈ mainRing.sortedHashes, x < hashKey "Key4") →
        (∀ x ∈ mainRing.sortedHashes, p ≤ x) ∧ p = mainRing.sortedHashes.getD 0 0) :=
  ⟨by decide, by decide,
    GetNode_resolves_successor mainRing "Key4" (by decide) (by decide)⟩


/-! ## C2: the empty ring -/

theorem RemoveNode_hashCircle_none {ch : ConsistentHash} {p : Nat} (h : ch.hashCircle p = none)
    (node : String) : (RemoveNode ch node).hashCircle p = none := by
  rw [RemoveNode_hashCircle]
  split
  · rfl
  · exact h

theorem foldl_RemoveNode_replicas (rems : List String) (ch : ConsistentHash) :
    (rems.foldl RemoveNode ch).replicas = ch.replicas := by
  induction rems generalizing ch with
  | nil => rfl
  | cons Z rest ih => rw [List.foldl_cons, ih, RemoveNode_replicas]

theorem foldl_RemoveNode_hashCircle_none (rems : List String) {ch : ConsistentHash} {p : Nat}
    (h : ch.hashCircle p = none) : (rems.foldl RemoveNode ch).hashCircle p = none := by
  induction rems generalizing ch with
  | nil => exact h
  | cons Z rest ih =>
    rw [List.foldl_cons]
    exact ih (RemoveNode_hashCircle_none h Z)

theorem foldl_RemoveNode_hashCircle_of_mem (rems : List String) (ch : ConsistentHash)
    {Y : String} {p : Nat} (hY : Y ∈ rems) (hp : p ∈ nodePositions ch.replicas Y) :
    (rems.foldl RemoveNode ch).hashCircle p = none := by
  induction rems generalizing ch with
  | nil => exact absurd hY (List.not_mem_nil Y)
  | cons Z rest ih =>
    rw [List.foldl_cons]
    rcases List.mem_cons.mp hY with hYZ | hYr
    · subst hYZ
      apply foldl_RemoveNode_hashCircle_none
      rw [RemoveNode_hashCircle, if_pos hp]
    · apply ih _ hYr
      rw [RemoveNode_replicas]
      exact hp

theorem foldl_AddNode_eq_run (R : Int) (nodes : List String) :
    nodes.foldl AddNode (NewConsistentHash R) = run R (nodes.map Op.add) := by
  unfold run
  rw [List.foldl_map]
  rfl

theorem GetNode_of_hashCircle_none {ch : ConsistentHash} (h : ∀ p, ch.hashCircle p = none)
    (key : String) : GetNode ch key = "" := by
  unfold GetNode entry
  split
  · rfl
  · rw [h]
    rfl

/-- Once every added node has been removed, in any order and any number of times, no owner
is left in `hashCircle` and every key resolves to the empty string. -/
theorem GetNode_after_removing_all (R : Int) (nodes rems : List String)
    (hall : ∀ x ∈ nodes, x ∈ rems) (key : String) :
    GetNode (rems.foldl RemoveNode (nodes.foldl AddNode (NewConsistentHash R))) key = "" := by
  apply GetNode_of_hashCircle_none
  intro p
  rw [foldl_AddNode_eq_run]
  cases hc : (run R (nodes.map Op.add)).hashCircle p with
  | none => exact foldl_RemoveNode_hashCircle_none rems hc
  | some Y =>
    obtain ⟨hY, hp⟩ := run_owner R _ p Y hc
    have hYn : Y ∈ nodes := by
      obtain ⟨x, hx, hxy⟩ := List.mem_map.mp hY
      cases hxy
      exact hx
    apply foldl_RemoveNode_hashCircle_of_mem rems _ (hall Y hYn)
    rw [run_replicas]
    exact hp

/-- C2. For every replica count and key, `GetNode` returns the empty string on
`NewConsistentHash R`, and also on the ring obtained by calling `AddNode` on each element of
a list of node identifiers (repetitions allowed) and then `RemoveNode` on every node that
was added: once per list element, or once per distinct node. -/
theorem GetNode_empty_ring (R : Int) (key : String) (nodes : List String) :
    GetNode (NewConsistentHash R) key = "" ∧
      GetNode (nodes.foldl RemoveNode (nodes.foldl AddNode (NewConsistentHash R))) key = "" ∧
      GetNode (nodes.dedup.foldl RemoveNode (nodes.foldl AddNode (NewConsistentHash R))) key
        = "" :=
  ⟨rfl, GetNode_after_removing_all R nodes nodes (fun _ h => h) key,
    GetNode_after_removing_all R nodes nodes.dedup (fun _ h => List.mem_dedup.mpr h) key⟩

/-! ## C3, C4: bounded remapping -/

/-- C3. In every state reached from `NewConsistentHash R` by `AddNode`/`RemoveNode` calls, if
the position that `GetNode key` resolves to (on a non-empty ring) is not one of the `R`
positions `hashKey (X + Itoa i)`, then `GetNode key` after `RemoveNode X` equals `GetNode key`
before it. -/
theorem GetNode_RemoveNode_unaffected (R : Int) (ops : List Op) (X key : String)
    (h : (run R ops).sortedHashes ≠ [] →
      resolvePosition (run R ops).sortedHashes (hashKey key) ∉ nodePositions R X) :
    GetNode (RemoveNode (run R ops) X) key = GetNode (run R ops) key := by
  apply GetNode_RemoveNode_of_not_mem (run_sorted R ops)
  rw [run_replicas]
  exact h

/-- C3 at the ring built by `main`: `Key1` resolves to a position of `Server1`, and removing
`Server2` leaves its owner. -/
theorem GetNode_RemoveNode_unaffected_witness :
    (mainRing.sortedHashes ≠ [] →
      resolvePosition mainRing.sortedHashes (hashKey "Key1") ∉ nodePositions 3 "Server2") ∧
    GetNode (RemoveNode mainRing "Server2") "Key1" = GetNode mainRing "Key1" :=
  ⟨by decide,
    GetNode_RemoveNode_unaffected 3 [Op.add "Server1", Op.add "Server2", Op.add "Server3"]
      "Server2" "Key1" (by decide)⟩

/-- C4. In every state reached from `NewConsistentHash R` by `AddNode`/`RemoveNode` calls,
`GetNode key` after `AddNode X` is either what it was before or `X`. -/
theorem GetNode_AddNode_moves_only_to_new (R : Int) (ops : List Op) (X key : String) :
    GetNode (AddNode (run R ops) X) key = GetNode (run R ops) key ∨
      GetNode (AddNode (run R ops) X) key = X :=
  GetNode_AddNode_cases (run_sorted R ops) X key


/-! ## C5, C6: owners after a removal -/

/-- C5, as stated, fails.  With eleven replicas the virtual-node keys `"a" + "10"` and
`"a1" + "0"` are the same string `a10`.  After `AddNode "a"` and `AddNode "a1"` its position
is owned by `a1` and the key `a10` resolves to `a1`, a non-empty identifier other than `a`;
`RemoveNode "a"` deletes that position from `hashCircle` and `a10` resolves to `""`. -/
theorem GetNode_RemoveNode_other_owner_counterexample :
    virtualNodeKey "a" 10 = virtualNodeKey "a1" 0 ∧
    GetNode (run 11 [Op.add "a", Op.add "a1"]) "a10" = "a1" ∧
    GetNode (RemoveNode (run 11 [Op.add "a", Op.add "a1"]) "a") "a10" = "" := by
  decide

/-- C5, amended. In every state reached from `NewConsistentHash R` by `AddNode`/`RemoveNode`
calls, for every node `X` and every key whose `GetNode` result is a non-empty identifier `Y`
other than `X` none of whose `R` virtual-node positions is also a position of `X`,
`GetNode key` after `RemoveNode X` is still `Y`. -/
theorem GetNode_RemoveNode_other_owner (R : Int) (ops : List Op) (X key Y : String)
    (hY : GetNode (run R ops) key = Y) (hne : Y ≠ "") (_hXY : Y ≠ X)
    (hcol : ∀ p ∈ nodePositions R X, p ∉ nodePositions R Y) :
    GetNode (RemoveNode (run R ops) X) key = Y := by
  rw [← hY]
  apply GetNode_RemoveNode_of_not_mem (run_sorted R ops)
  intro hnil hmem
  rw [run_replicas] at hmem
  apply hcol _ hmem
  rw [GetNode_of_ne_nil hnil] at hY
  have hsome : (run R ops).hashCircle
      (resolvePosition (run R ops).sortedHashes (hashKey key)) = some Y := by
    unfold entry at hY
    cases hc : (run R ops).hashCircle (resolvePosition (run R ops).sortedHashes (hashKey key)) with
    | none =>
      rw [hc] at hY
      exact absurd hY.symm hne
    | some Z =>
      rw [hc] at hY
      exact congrArg some hY
  exact (run_owner R ops _ Y hsome).2

/-- C5, amended, on the scenario of `main`: `Key1` is owned by `Server1` and stays with it
when `Server2` is removed. -/
theorem GetNode_RemoveNode_other_owner_witness :
    GetNode mainRing "Key1" = "Server1" ∧ "Server1" ≠ "" ∧ "Server1" ≠ "Server2" ∧
    (∀ p ∈ nodePositions 3 "Server2", p ∉ nodePositions 3 "Server1") ∧
    GetNode (RemoveNode mainRing "Server2") "Key1" = "Server1" :=
  ⟨by decide, by decide, by decide, by decide,
    GetNode_RemoveNode_other_owner 3 [Op.add "Server1", Op.add "Server2", Op.add "Server3"]
      "Server2" "Key1" "Server1" (by decide) (by decide) (by decide) (by decide)⟩

/-- No position is owned by a node that has just been removed. -/
theorem RemoveNode_hashCircle_ne (R : Int) (ops : List Op) (X : String) (p : Nat) :
    (RemoveNode (run R ops) X).hashCircle p ≠ some X := by
  rw [RemoveNode_hashCircle, run_replicas]
  by_cases hp : p ∈ nodePositions R X
  · rw [if_pos hp]
    exact fun h => Option.noConfusion h
  · rw [if_neg hp]
    exact fun h => hp (run_owner R ops p X h).2

/-- C6. In every state reached from `NewConsistentHash R` by `AddNode`/`RemoveNode` calls, for
every non-empty node identifier `X` and every key, `GetNode key` after `RemoveNode X` is
never `X`. -/
theorem GetNode_RemoveNode_ne (R : Int) (ops : List Op) (X key : String) (hX : X ≠ "") :
    GetNode (RemoveNode (run R ops) X) key ≠ X := by
  unfold GetNode
  split
  · exact fun h => hX h.symm
  · unfold entry
    intro h
    cases hc : (RemoveNode (run R ops) X).hashCircle
        (resolvePosition (RemoveNode (run R ops) X).sortedHashes (hashKey key)) with
    | none =>
      rw [hc] at h
      exact hX h.symm
    | some Z =>
      rw [hc] at h
      have hZ : Z = X := h
      rw [hZ] at hc
      exact RemoveNode_hashCircle_ne R ops X _ hc

/-- C6 on the scenario of `main`: after `Server2` is removed, `Key2` (which it owned) no
longer resolves to it. -/
theorem GetNode_RemoveNode_ne_witness :
    "Server2" ≠ "" ∧ GetNode mainRing "Key2" = "Server2" ∧
    GetNode (RemoveNode mainRing "Server2") "Key2" ≠ "Server2" :=
  ⟨by decide, by decide,
    GetNode_RemoveNode_ne 3 [Op.add "Server1", Op.add "Server2", Op.add "Server3"]
      "Server2" "Key2" (by decide)⟩

/-! ## C7: idempotent add -/

theorem GetNode_AddNode_AddNode (ch : ConsistentHash) (X key : String) :
    GetNode (AddNode (AddNode ch X) X) key = GetNode (AddNode ch X) key := by
  apply GetNode_congr (AddNode_sorted ch X) (AddNode_sorted _ X)
  · intro x
    rw [mem_AddNode_sortedHashes (AddNode ch X), AddNode_replicas, mem_AddNode_sortedHashes]
    tauto
  · intro p _
    unfold entry
    rw [AddNode_hashCircle (AddNode ch X), AddNode_replicas, AddNode_hashCircle]
    split <;> rfl

/-- C7. In every state reached from `NewConsistentHash R` by `AddNode`/`RemoveNode` calls, for
every node `X` and key, `GetNode key` after calling `AddNode X` twice in a row equals
`GetNode key` after calling it once. -/
theorem GetNode_AddNode_idempotent (R : Int) (ops : List Op) (X key : String) :
    GetNode (AddNode (AddNode (run R ops) X) X) key = GetNode (AddNode (run R ops) X) key :=
  GetNode_AddNode_AddNode (run R ops) X key


/-! ## C8: adding a node and removing it again -/

theorem append_diff_self (t l : List Nat) : (t ++ l).diff t = l := by
  induction t with
  | nil => rfl
  | cons a t ih => rw [List.cons_append, List.diff_cons, List.erase_cons_head, ih]

theorem insertionSort_append_diff {l : List Nat} (hs : l.Sorted (· ≤ ·)) (t : List Nat) :
    ((l ++ t).insertionSort (· ≤ ·)).diff t = l := by
  have h1 : List.Perm ((l ++ t).insertionSort (· ≤ ·)) (t ++ l) :=
    (List.perm_insertionSort _ _).trans List.perm_append_comm
  have h2 : List.Perm (((l ++ t).insertionSort (· ≤ ·)).diff t) l := by
    have := List.Perm.diff_right t h1
    rwa [append_diff_self] at this
  exact List.eq_of_perm_of_sorted h2 (sorted_diff (List.sorted_insertionSort _ _) t) hs

theorem RemoveNode_AddNode_sortedHashes {ch : ConsistentHash}
    (hs : ch.sortedHashes.Sorted (· ≤ ·)) (X : String) :
    (RemoveNode (AddNode ch X) X).sortedHashes = ch.sortedHashes := by
  rw [RemoveNode_sortedHashes (AddNode_sorted ch X), AddNode_replicas, AddNode_sortedHashes]
  exact insertionSort_append_diff hs _

theorem RemoveNode_AddNode_hashCircle (ch : ConsistentHash) (X : String)
    (hfresh : ∀ p ∈ nodePositions ch.replicas X, ch.hashCircle p = none) :
    (RemoveNode (AddNode ch X) X).hashCircle = ch.hashCircle := by
  funext p
  rw [RemoveNode_hashCircle, AddNode_replicas, AddNode_hashCircle]
  by_cases hp : p ∈ nodePositions ch.replicas X
  · rw [if_pos hp, hfresh p hp]
  · rw [if_neg hp, if_neg hp]

/-- C8, as stated, fails.  On the ring with one replica that already holds node `a`,
`AddNode "a"` followed by `RemoveNode "a"` leaves no owner at the position of `a0`, which
`a` owned before, and the key `a0` resolves to `""` instead of `a`. -/
theorem RemoveNode_AddNode_roundtrip_counterexample :
    (run 1 [Op.add "a"]).hashCircle (hashKey "a0") = some "a" ∧
    (RemoveNode (AddNode (run 1 [Op.add "a"]) "a") "a").hashCircle (hashKey "a0") = none ∧
    GetNode (run 1 [Op.add "a"]) "a0" = "a" ∧
    GetNode (RemoveNode (AddNode (run 1 [Op.add "a"]) "a") "a") "a0" = "" := by
  decide

/-- C8, amended. In every state reached from `NewConsistentHash R` by `AddNode`/`RemoveNode`
calls, for every node `X` none of whose `R` virtual-node positions is currently a key of
`hashCircle`, `AddNode X` followed immediately by `RemoveNode X` restores `hashCircle`, the
sequence `sortedHashes` (hence its set of positions) and `GetNode` for every key to exactly
what they were before `AddNode X`. -/
theorem RemoveNode_AddNode_roundtrip (R : Int) (ops : List Op) (X : String)
    (hfresh : ∀ p ∈ nodePositions R X, (run R ops).hashCircle p = none) :
    (RemoveNode (AddNode (run R ops) X) X).hashCircle = (run R ops).hashCircle ∧
    (RemoveNode (AddNode (run R ops) X) X).sortedHashes = (run R ops).sortedHashes ∧
    ∀ key, GetNode (RemoveNode (AddNode (run R ops) X) X) key = GetNode (run R ops) key := by
  have h1 : (RemoveNode (AddNode (run R ops) X) X).hashCircle = (run R ops).hashCircle := by
    apply RemoveNode_AddNode_hashCircle
    rw [run_replicas]
    exact hfresh
  have h2 := RemoveNode_AddNode_sortedHashes (run_sorted R ops) X
  refine ⟨h1, h2, ?_⟩
  intro key
  unfold GetNode entry
  rw [h1, h2]

/-- C8, amended, on the scenario of `main`: a fourth node `Server4` is added to the three
servers and removed again. -/
theorem RemoveNode_AddNode_roundtrip_witness :
    (∀ p ∈ nodePositions 3 "Server4", mainRing.hashCircle p = none) ∧
    (RemoveNode (AddNode mainRing "Server4") "Server4").hashCircle = mainRing.hashCircle ∧
    (RemoveNode (AddNode mainRing "Server4") "Server4").sortedHashes = mainRing.sortedHashes ∧
    ∀ key, GetNode (RemoveNode (AddNode mainRing "Server4") "Server4") key
      = GetNode mainRing key :=
  ⟨by decide,
    RemoveNode_AddNode_roundtrip 3 [Op.add "Server1", Op.add "Server2", Op.add "Server3"]
      "Server4" (by decide)⟩

/-! ## C9: the ring invariant -/

/-- C9 at a failing input.  With one replica, calling `AddNode "a"` twice appends the
position of `a0` to `sortedHashes` twice, so the slice is not strictly ascending; a
following `RemoveNode "a"` deletes the key from `hashCircle` but only one of the two copies
from `sortedHashes`, which then holds a position that is not a key of `hashCircle`. -/
theorem run_invariant_failing_input :
    (run 1 [Op.add "a", Op.add "a"]).sortedHashes = [468089013, 468089013] ∧
    ¬ (run 1 [Op.add "a", Op.add "a"]).sortedHashes.Sorted (· < ·) ∧
    (run 1 [Op.add "a", Op.add "a", Op.remove "a"]).sortedHashes = [468089013] ∧
    (run 1 [Op.add "a", Op.add "a", Op.remove "a"]).hashCircle 468089013 = none := by
  decide

/-! ## C10: removing a node that was never added -/

theorem diff_eq_self_of_disjoint (l : List Nat) :
    ∀ t : List Nat, (∀ p ∈ t, p ∉ l) → l.diff t = l := by
  intro t
  induction t with
  | nil => intro _; rfl
  | cons a t ih =>
    intro h
    rw [List.diff_cons, List.erase_of_not_mem (h a (List.mem_cons_self a t))]
    exact ih fun p hp => h p (List.mem_cons_of_mem a hp)

/-- C10, as stated, fails.  With eleven replicas, `AddNode` was called on `a1` only, yet
`RemoveNode "a"` deletes the position of the string `a10` (the key of replica `10` of `a`
and of replica `0` of `a1`) from `hashCircle` and from `sortedHashes`. -/
theorem RemoveNode_never_added_counterexample :
    Op.add "a" ∉ [Op.add "a1"] ∧
    (run 11 [Op.add "a1"]).hashCircle (hashKey "a10") = some "a1" ∧
    (RemoveNode (run 11 [Op.add "a1"]) "a").hashCircle (hashKey "a10") = none ∧
    (run 11 [Op.add "a1"]).sortedHashes.length = 11 ∧
    (RemoveNode (run 11 [Op.add "a1"]) "a").sortedHashes.length = 10 := by
  decide

/-- C10, amended. In every state reached from `NewConsistentHash R` by `AddNode`/`RemoveNode`
calls, for every node identifier `X` on which `AddNode` was never called and none of whose `R`
virtual-node positions is a position of a node on which `AddNode` was called,
`RemoveNode X` leaves `hashCircle` and `sortedHashes` unchanged. -/
theorem RemoveNode_never_added (R : Int) (ops : List Op) (X : String)
    (_hnever : Op.add X ∉ ops)
    (hcol : ∀ Y, Op.add Y ∈ ops → ∀ p ∈ nodePositions R X, p ∉ nodePositions R Y) :
    (RemoveNode (run R ops) X).hashCircle = (run R ops).hashCircle ∧
    (RemoveNode (run R ops) X).sortedHashes = (run R ops).sortedHashes := by
  have hnot : ∀ p ∈ nodePositions R X, p ∉ (run R ops).sortedHashes := by
    intro p hp hmem
    obtain ⟨Y, hY, hpY⟩ := run_origin R ops p hmem
    exact hcol Y hY p hp hpY
  constructor
  · funext p
    rw [RemoveNode_hashCircle, run_replicas]
    by_cases hp : p ∈ nodePositions R X
    · rw [if_pos hp]
      by_contra hc
      exact hnot p hp (run_keys_mem R ops p (fun h => hc h.symm))
    · rw [if_neg hp]
  · rw [RemoveNode_sortedHashes (run_sorted R ops), run_replicas]
    exact diff_eq_self_of_disjoint _ _ hnot

/-- C10, amended, on the scenario of `main`: `Server4` was never added and shares no position
with the three servers, so removing it changes nothing. -/
theorem RemoveNode_never_added_witness :
    Op.add "Server4" ∉ [Op.add "Server1", Op.add "Server2", Op.add "Server3"] ∧
    (∀ Y, Op.add Y ∈ [Op.add "Server1", Op.add "Server2", Op.add "Server3"] →
      ∀ p ∈ nodePositions 3 "Server4", p ∉ nodePositions 3 Y) ∧
    (RemoveNode mainRing "Server4").hashCircle = mainRing.hashCircle ∧
    (RemoveNode mainRing "Server4").sortedHashes = mainRing.sortedHashes :=
  have hcol : ∀ Y, Op.add Y ∈ [Op.add "Server1", Op.add "Server2", Op.add "Server3"] →
      ∀ p ∈ nodePositions 3 "Server4", p ∉ nodePositions 3 Y := by
    intro Y hY
    simp only [List.mem_cons, Op.add.injEq, List.mem_singleton, List.not_mem_nil,
      or_false] at hY
    rcases hY with h | h | h <;> subst h <;> decide
  ⟨by decide, hcol,
    RemoveNode_never_added 3 [Op.add "Server1", Op.add "Server2", Op.add "Server3"]
      "Server4" (by decide) hcol⟩


/-! ## C11: removing a node twice -/

/-- C11 at a failing input.  With one replica, after `AddNode "a"`, `AddNode "a"`,
`AddNode "b"` and `RemoveNode "a"` the slice still holds one copy of the position of `a0`,
with no owner, and the key `a0` resolves to `""`.  A second `RemoveNode "a"` splices that
copy out: `sortedHashes` changes and the key `a0` now resolves to `b`. -/
theorem RemoveNode_twice_failing_input :
    (run 1 [Op.add "a", Op.add "a", Op.add "b", Op.remove "a"]).sortedHashes
      = [468089013, 818621302] ∧
    (RemoveNode (run 1 [Op.add "a", Op.add "a", Op.add "b", Op.remove "a"]) "a").sortedHashes
      = [818621302] ∧
    GetNode (run 1 [Op.add "a", Op.add "a", Op.add "b", Op.remove "a"]) "a0" = "" ∧
    GetNode (RemoveNode (run 1 [Op.add "a", Op.add "a", Op.add "b", Op.remove "a"]) "a") "a0"
      = "b" := by
  decide

/-! ## C12: positions of other nodes -/

/-- C12, as stated, fails.  With eleven replicas, after `AddNode "a"` and `AddNode "a1"` the
position of the string `a10` is owned by `a1`, a node different from `a`; `RemoveNode "a"`
recomputes the same string as its replica `10` and deletes the entry. -/
theorem RemoveNode_keeps_other_positions_counterexample :
    (run 11 [Op.add "a", Op.add "a1"]).hashCircle (hashKey "a10") = some "a1" ∧
    "a1" ≠ "a" ∧
    (RemoveNode (run 11 [Op.add "a", Op.add "a1"]) "a").hashCircle (hashKey "a10") = none := by
  decide

/-- C12, amended. In every state reached from `NewConsistentHash R` by `AddNode`/`RemoveNode`
calls, for every node `X` and every position `p` whose owner is a node `Y` different from `X`
none of whose `R` virtual-node positions is also a position of `X`, after `RemoveNode X` the
position `p` is still in `sortedHashes` and still owned by `Y`. -/
theorem RemoveNode_keeps_other_positions (R : Int) (ops : List Op) (X Y : String) (p : Nat)
    (hY : (run R ops).hashCircle p = some Y) (_hXY : Y ≠ X)
    (hcol : ∀ q ∈ nodePositions R X, q ∉ nodePositions R Y) :
    (RemoveNode (run R ops) X).hashCircle p = some Y ∧
      p ∈ (RemoveNode (run R ops) X).sortedHashes := by
  have hpY := (run_owner R ops p Y hY).2
  have hpX : p ∉ nodePositions R X := fun h => hcol p h hpY
  constructor
  · rw [RemoveNode_hashCircle, run_replicas, if_neg hpX]
    exact hY
  · rw [RemoveNode_sortedHashes (run_sorted R ops), run_replicas]
    apply List.mem_diff_of_mem _ hpX
    apply run_keys_mem
    rw [hY]
    exact fun h => Option.noConfusion h

/-- C12, amended, on the scenario of `main`: the first position of the ring belongs to
`Server1` and survives the removal of `Server2`. -/
theorem RemoveNode_keeps_other_positions_witness :
    mainRing.hashCircle 41557142 = some "Server1" ∧ "Server1" ≠ "Server2" ∧
    (∀ q ∈ nodePositions 3 "Server2", q ∉ nodePositions 3 "Server1") ∧
    (RemoveNode mainRing "Server2").hashCircle 41557142 = some "Server1" ∧
    41557142 ∈ (RemoveNode mainRing "Server2").sortedHashes :=
  ⟨by decide, by decide, by decide,
    RemoveNode_keeps_other_positions 3 [Op.add "Server1", Op.add "Server2", Op.add "Server3"]
      "Server2" "Server1" 41557142 (by decide) (by decide) (by decide)⟩

/-! ## C13: coverage -/

theorem isLive_snoc (ops : List Op) (op : Op) (Y : String) :
    isLive (ops ++ [op]) Y =
      if op = Op.add Y then true else if op = Op.remove Y then false else isLive ops Y := by
  simp [isLive, List.foldl_append]

/-- An owner recorded in `hashCircle` has been added and not removed since. -/
theorem run_owner_isLive (R : Int) (ops : List Op) (p : Nat) (Y : String)
    (h : (run R ops).hashCircle p = some Y) : isLive ops Y = true := by
  induction ops using List.reverseRecOn with
  | nil => exact absurd h (by simp [run, NewConsistentHash])
  | append_singleton ops op ih =>
    rw [run_snoc] at h
    rw [isLive_snoc]
    cases op with
    | add node =>
      simp only [applyOp] at h
      rw [AddNode_hashCircle, run_replicas] at h
      by_cases hp : p ∈ nodePositions R node
      · rw [if_pos hp] at h
        have : node = Y := Option.some.inj h
        subst this
        simp
      · rw [if_neg hp] at h
        have := ih h
        by_cases hn : node = Y
        · simp [hn]
        · simp [hn, this]
    | remove node =>
      simp only [applyOp] at h
      rw [RemoveNode_hashCircle, run_replicas] at h
      by_cases hp : p ∈ nodePositions R node
      · rw [if_pos hp] at h
        exact absurd h (by simp)
      · rw [if_neg hp] at h
        have hn : node ≠ Y := by
          intro hn
          subst hn
          exact hp (run_owner R ops p node h).2
        simp [hn, ih h]

/-- C13, as stated, fails.  The empty string is an accepted node identifier: with one
replica, after `AddNode ""` the ring is non-empty and every key resolves to the identifier
`""`, which is also the sentinel of the empty ring. -/
theorem GetNode_coverage_counterexample :
    (run 1 [Op.add ""]).sortedHashes = [4108050209] ∧
    GetNode (run 1 [Op.add ""]) "Key1" = "" := by
  decide

/-- C13, amended. In every state reached from `NewConsistentHash R` by `AddNode`/`RemoveNode`
calls that is non-empty and in which every element of `sortedHashes` is a key of
`hashCircle`, for every key `GetNode key` is the identifier of a node that has been added and
not subsequently removed; it is not the empty string unless `AddNode` was called on the
empty identifier. -/
theorem GetNode_coverage (R : Int) (ops : List Op) (key : String)
    (hne : (run R ops).sortedHashes ≠ [])
    (hkeys : ∀ p ∈ (run R ops).sortedHashes, (run R ops).hashCircle p ≠ none) :
    isLive ops (GetNode (run R ops) key) = true ∧
      (Op.add "" ∉ ops → GetNode (run R ops) key ≠ "") := by
  have hsucc := resolvePosition_isSuccessor (run_sorted R ops) hne (hashKey key)
  have hget := GetNode_of_ne_nil hne key
  cases hc : (run R ops).hashCircle (resolvePosition (run R ops).sortedHashes (hashKey key)) with
  | none => exact absurd hc (hkeys _ hsucc.1)
  | some Y =>
    have hY : GetNode (run R ops) key = Y := by
      rw [hget]
      unfold entry
      rw [hc]
      rfl
    rw [hY]
    refine ⟨run_owner_isLive R ops _ Y hc, ?_⟩
    intro hnever hempty
    rw [hempty] at hc
    exact hnever (run_owner R ops _ "" hc).1

/-- C13, amended, on the scenario of `main`: `Key2` resolves to `Server2`, which has been
added and not removed. -/
theorem GetNode_coverage_witness :
    mainRing.sortedHashes ≠ [] ∧
    (∀ p ∈ mainRing.sortedHashes, mainRing.hashCircle p ≠ none) ∧
    GetNode mainRing "Key2" = "Server2" ∧
    isLive [Op.add "Server1", Op.add "Server2", Op.add "Server3"] (GetNode mainRing "Key2")
      = true ∧
    (Op.add "" ∉ [Op.add "Server1", Op.add "Server2", Op.add "Server3"] →
      GetNode mainRing "Key2" ≠ "") :=
  ⟨by decide, by decide, by decide,
    GetNode_coverage 3 [Op.add "Server1", Op.add "Server2", Op.add "Server3"] "Key2"
      (by decide) (by decide)⟩


/-! ## C14: last write wins -/

theorem mem_nodePositions {R : Int} {node : String} {p : Nat} :
    p ∈ nodePositions R node ↔ ∃ i : Nat, (i : Int) < R ∧ hashKey (virtualNodeKey node i) = p := by
  unfold nodePositions
  rw [List.mem_map]
  constructor
  · rintro ⟨i, hi, hp⟩
    exact ⟨i, Int.lt_toNat.mp (List.mem_range.mp hi), hp⟩
  · rintro ⟨i, hi, hp⟩
    exact ⟨i, List.mem_range.mpr (Int.lt_toNat.mpr hi), hp⟩

/-- C14. For every ring state, node `X` and replica index `i` in `[0, R)`, after `AddNode X`
the position `hashKey (X + Itoa i)` is a key of `hashCircle` with owner `X`, whatever owner
it had before, and occurs in `sortedHashes`; the `hashCircle` entry at every position that is
not one of these `R` positions is unchanged. -/
theorem AddNode_last_write_wins (ch : ConsistentHash) (X : String) :
    (∀ i : Nat, (i : Int) < ch.replicas →
      (AddNode ch X).hashCircle (hashKey (virtualNodeKey X i)) = some X ∧
        hashKey (virtualNodeKey X i) ∈ (AddNode ch X).sortedHashes) ∧
    (∀ p : Nat, (∀ i : Nat, (i : Int) < ch.replicas → p ≠ hashKey (virtualNodeKey X i)) →
      (AddNode ch X).hashCircle p = ch.hashCircle p) := by
  constructor
  · intro i hi
    have hmem : hashKey (virtualNodeKey X i) ∈ nodePositions ch.replicas X :=
      mem_nodePositions.mpr ⟨i, hi, rfl⟩
    constructor
    · rw [AddNode_hashCircle, if_pos hmem]
    · exact (mem_AddNode_sortedHashes ch X _).mpr (Or.inr hmem)
  · intro p hp
    have hmem : p ∉ nodePositions ch.replicas X := by
      intro h
      obtain ⟨i, hi, hpi⟩ := mem_nodePositions.mp h
      exact hp i hi hpi.symm
    rw [AddNode_hashCircle, if_neg hmem]

/-- C14 at a collision: with eleven replicas the position of the string `a10` is owned by `a`
(replica `10`); `AddNode "a1"` writes it as its replica `0` and becomes its owner. -/
theorem AddNode_last_write_wins_witness :
    ((0 : Nat) : Int) < (run 11 [Op.add "a"]).replicas ∧
    (run 11 [Op.add "a"]).hashCircle (hashKey (virtualNodeKey "a1" 0)) = some "a" ∧
    (AddNode (run 11 [Op.add "a"]) "a1").hashCircle (hashKey (virtualNodeKey "a1" 0))
      = some "a1" ∧
    hashKey (virtualNodeKey "a1" 0) ∈ (AddNode (run 11 [Op.add "a"]) "a1").sortedHashes :=
  ⟨by decide, by decide,
    (AddNode_last_write_wins (run 11 [Op.add "a"]) "a1").1 0 (by decide)⟩

/-! ## C15: the virtual-node keys -/

/-- C15, as stated, fails.  With eleven replicas, replica `10` of node `a` and replica `0` of
node `a1` have the same key `a10`. -/
theorem virtualNodeKey_injective_counterexample :
    ((10 : Nat) : Int) < 11 ∧ ((0 : Nat) : Int) < 11 ∧
    virtualNodeKey "a" 10 = virtualNodeKey "a1" 0 ∧ "a" ≠ "a1" ∧ (10 : Nat) ≠ 0 := by
  decide

theorem Itoa_of_lt_ten {i : Nat} (hi : i < 10) : Itoa i = String.mk [Nat.digitChar i] := by
  interval_cases i <;> rfl

theorem digitChar_inj_of_lt_ten {i j : Nat} (hi : i < 10) (hj : j < 10)
    (h : Nat.digitChar i = Nat.digitChar j) : i = j := by
  interval_cases i <;> interval_cases j <;> first | rfl | exact absurd h (by decide)

/-- C15, amended. For every replica count `R ≤ 10`, all node identifiers `a`, `b` and all
replica indices `i`, `j` in `[0, R)`, if `a + Itoa i = b + Itoa j` then `a = b` and `i = j`. -/
theorem virtualNodeKey_injective (R : Int) (hR : R ≤ 10) (a b : String) (i j : Nat)
    (hi : (i : Int) < R) (hj : (j : Int) < R)
    (h : virtualNodeKey a i = virtualNodeKey b j) : a = b ∧ i = j := by
  have hi10 : i < 10 := by omega
  have hj10 : j < 10 := by omega
  unfold virtualNodeKey at h
  rw [Itoa_of_lt_ten hi10, Itoa_of_lt_ten hj10] at h
  have hd : a.data ++ [Nat.digitChar i] = b.data ++ [Nat.digitChar j] := by
    have := congrArg String.data h
    simpa [String.data_append] using this
  obtain ⟨h1, h2⟩ := List.append_inj' hd rfl
  refine ⟨String.ext h1, ?_⟩
  exact digitChar_inj_of_lt_ten hi10 hj10 (List.head_eq_of_cons_eq h2)

/-- C15, amended, at the three replicas of `main`. -/
theorem virtualNodeKey_injective_witness :
    (3 : Int) ≤ 10 ∧ ((2 : Nat) : Int) < 3 ∧
    virtualNodeKey "Server1" 2 = virtualNodeKey "Server1" 2 ∧
    ("Server1" = "Server1" ∧ (2 : Nat) = 2) :=
  ⟨by decide, by decide, rfl,
    virtualNodeKey_injective 3 (by decide) "Server1" "Server1" 2 2 (by decide) (by decide) rfl⟩


/-! ## C16: `RemoveNode` on a ring that satisfies the invariant -/

/-- C16. On a ring whose `sortedHashes` is strictly ascending and holds exactly the keys of
`hashCircle`, after `RemoveNode X`: none of the `R` positions of `X` remains in `hashCircle`
or in `sortedHashes`; every other position keeps its presence and its owner; `sortedHashes`
is the old slice with the positions of `X` filtered out, so the remaining positions keep
their relative order; and the invariant still holds. -/
theorem RemoveNode_on_invariant (ch : ConsistentHash) (X : String)
    (hs : ch.sortedHashes.Sorted (· < ·))
    (hk : ∀ p, p ∈ ch.sortedHashes ↔ ch.hashCircle p ≠ none) :
    (∀ p ∈ nodePositions ch.replicas X,
      (RemoveNode ch X).hashCircle p = none ∧ p ∉ (RemoveNode ch X).sortedHashes) ∧
    (∀ p, p ∉ nodePositions ch.replicas X →
      (RemoveNode ch X).hashCircle p = ch.hashCircle p ∧
        (p ∈ (RemoveNode ch X).sortedHashes ↔ p ∈ ch.sortedHashes)) ∧
    (RemoveNode ch X).sortedHashes =
      ch.sortedHashes.filter (fun p => decide (p ∉ nodePositions ch.replicas X)) ∧
    (RemoveNode ch X).sortedHashes.Sorted (· < ·) ∧
    (∀ p, p ∈ (RemoveNode ch X).sortedHashes ↔ (RemoveNode ch X).hashCircle p ≠ none) := by
  have hle : ch.sortedHashes.Sorted (· ≤ ·) := hs.le_of_lt
  have hnd : ch.sortedHashes.Nodup := hs.nodup
  have hl := RemoveNode_sortedHashes hle X
  have hmem : ∀ p, p ∈ (RemoveNode ch X).sortedHashes ↔
      p ∈ ch.sortedHashes ∧ p ∉ nodePositions ch.replicas X := by
    intro p
    rw [hl]
    exact hnd.mem_diff_iff
  refine ⟨?_, ?_, ?_, ?_, ?_⟩
  · intro p hp
    refine ⟨?_, fun h => ((hmem p).mp h).2 hp⟩
    rw [RemoveNode_hashCircle, if_pos hp]
  · intro p hp
    refine ⟨?_, ?_⟩
    · rw [RemoveNode_hashCircle, if_neg hp]
    · rw [hmem p]
      exact ⟨fun h => h.1, fun h => ⟨h, hp⟩⟩
  · rw [hl, hnd.diff_eq_filter]
  · rw [hl]
    exact List.Pairwise.sublist (List.diff_sublist _ _) hs
  · intro p
    rw [hmem p, RemoveNode_hashCircle]
    by_cases hp : p ∈ nodePositions ch.replicas X
    · rw [if_pos hp]
      exact ⟨fun h => absurd hp h.2, fun h => absurd rfl h⟩
    · rw [if_neg hp, ← hk p]
      exact ⟨fun h => h.1, fun h => ⟨h, hp⟩⟩

/-- C16 on the scenario of `main`: the ring of three servers satisfies the invariant, and
`Server2` is removed. -/
theorem RemoveNode_on_invariant_witness :
    mainRing.sortedHashes.Sorted (· < ·) ∧
    (∀ p, p ∈ mainRing.sortedHashes ↔ mainRing.hashCircle p ≠ none) ∧
    (RemoveNode mainRing "Server2").sortedHashes =
      mainRing.sortedHashes.filter (fun p => decide (p ∉ nodePositions mainRing.replicas "Server2")) ∧
    (RemoveNode mainRing "Server2").sortedHashes.Sorted (· < ·) :=
  have hk : ∀ p, p ∈ mainRing.sortedHashes ↔ mainRing.hashCircle p ≠ none := fun p =>
    ⟨(by decide : ∀ q ∈ mainRing.sortedHashes, mainRing.hashCircle q ≠ none) p,
      run_keys_mem 3 [Op.add "Server1", Op.add "Server2", Op.add "Server3"] p⟩
  have h := RemoveNode_on_invariant mainRing "Server2" (by decide) hk
  ⟨by decide, hk, h.2.2.1, h.2.2.2.1⟩

/-! ## C17: non-positive replica counts -/

theorem nodePositions_of_nonpos {R : Int} (hR : R ≤ 0) (node : String) :
    nodePositions R node = [] := by
  unfold nodePositions
  rw [Int.toNat_of_nonpos hR]
  rfl

/-- C17. A ring constructed with replica count `R ≤ 0` never holds a virtual node: in every
state reached from `NewConsistentHash R` by `AddNode`/`RemoveNode` calls, `hashCircle` and
`sortedHashes` are empty and `GetNode` returns the empty string for every key. -/
theorem run_of_nonpos_replicas (R : Int) (hR : R ≤ 0) (ops : List Op) :
    (∀ p, (run R ops).hashCircle p = none) ∧ (run R ops).sortedHashes = [] ∧
      ∀ key, GetNode (run R ops) key = "" := by
  have hl : (run R ops).sortedHashes = [] := by
    apply List.eq_nil_iff_forall_not_mem.mpr
    intro p hp
    obtain ⟨Y, _, hY⟩ := run_origin R ops p hp
    rw [nodePositions_of_nonpos hR] at hY
    exact absurd hY (List.not_mem_nil p)
  refine ⟨?_, hl, fun key => GetNode_of_nil hl key⟩
  intro p
  by_contra hc
  have := run_keys_mem R ops p hc
  rw [hl] at this
  exact absurd this (List.not_mem_nil p)

/-- C17 at replica counts `0` and `-1`, after adding the three servers of `main`. -/
theorem run_of_nonpos_replicas_witness :
    ((-1 : Int) ≤ 0) ∧
    (run (-1) [Op.add "Server1", Op.add "Server2", Op.add "Server3"]).sortedHashes = [] ∧
    GetNode (run (-1) [Op.add "Server1", Op.add "Server2", Op.add "Server3"]) "Key1" = "" :=
  have h := run_of_nonpos_replicas (-1) (by decide)
    [Op.add "Server1", Op.add "Server2", Op.add "Server3"]
  ⟨by decide, h.2.1, h.2.2 "Key1"⟩

/-! ## C18: conditional round trip -/

/-- C18. For every ring state whose `sortedHashes` is sorted in non-decreasing order and every
node `X` none of whose `R` positions occurs in `sortedHashes` or is a key of `hashCircle`,
`AddNode X` followed by `RemoveNode X` yields exactly the original `hashCircle` and exactly
the original `sortedHashes`. -/
theorem RemoveNode_AddNode_fresh (ch : ConsistentHash) (X : String)
    (hs : ch.sortedHashes.Sorted (· ≤ ·))
    (hfresh : ∀ p ∈ nodePositions ch.replicas X,
      p ∉ ch.sortedHashes ∧ ch.hashCircle p = none) :
    (RemoveNode (AddNode ch X) X).hashCircle = ch.hashCircle ∧
      (RemoveNode (AddNode ch X) X).sortedHashes = ch.sortedHashes :=
  ⟨RemoveNode_AddNode_hashCircle ch X fun p hp => (hfresh p hp).2,
    RemoveNode_AddNode_sortedHashes hs X⟩

/-- C18 on the ring of `main` after `Server2` has been removed: `Server2` is added back and
removed again. -/
theorem RemoveNode_AddNode_fresh_witness :
    (RemoveNode mainRing "Server2").sortedHashes.Sorted (· ≤ ·) ∧
    (∀ p ∈ nodePositions (RemoveNode mainRing "Server2").replicas "Server2",
      p ∉ (RemoveNode mainRing "Server2").sortedHashes ∧
        (RemoveNode mainRing "Server2").hashCircle p = none) ∧
    (RemoveNode (AddNode (RemoveNode mainRing "Server2") "Server2") "Server2").hashCircle
      = (RemoveNode mainRing "Server2").hashCircle ∧
    (RemoveNode (AddNode (RemoveNode mainRing "Server2") "Server2") "Server2").sortedHashes
      = (RemoveNode mainRing "Server2").sortedHashes :=
  ⟨by decide, by decide,
    RemoveNode_AddNode_fresh (RemoveNode mainRing "Server2") "Server2" (by decide) (by decide)⟩

/-! ## C19: what every reachable state satisfies -/

/-- C19. In every state reached from `NewConsistentHash R` by any sequence of `AddNode` and
`RemoveNode` calls, `sortedHashes` is sorted in non-decreasing order and every key of
`hashCircle` occurs in `sortedHashes`. -/
theorem run_sorted_and_keys_mem (R : Int) (ops : List Op) :
    (run R ops).sortedHashes.Sorted (· ≤ ·) ∧
      ∀ p, (run R ops).hashCircle p ≠ none → p ∈ (run R ops).sortedHashes :=
  ⟨run_sorted R ops, run_keys_mem R ops⟩


/-! ## C20: index safety -/

/-- The search stays inside `[i, j]`, whatever the predicate. -/
theorem searchLoop_bounds (f : Nat → Bool) :
    ∀ fuel i j, i ≤ j → i ≤ searchLoop f fuel i j ∧ searchLoop f fuel i j ≤ j := by
  intro fuel
  induction fuel with
  | zero =>
    intro i j hij
    exact ⟨le_refl _, hij⟩
  | succ fuel ih =>
    intro i j hij
    unfold searchLoop
    by_cases hlt : i < j
    · simp only [hlt, if_true]
      by_cases hf : f ((i + j) / 2) = true
      · simp only [hf, Bool.not_true, Bool.false_eq_true, if_false]
        have := ih i ((i + j) / 2) (by omega)
        exact ⟨this.1, by omega⟩
      · simp only [Bool.not_eq_true] at hf
        simp only [hf, Bool.not_false, if_true]
        have := ih ((i + j) / 2 + 1) j (by omega)
        exact ⟨by omega, this.2⟩
    · simp only [hlt, if_false]
      exact ⟨le_refl _, hij⟩

theorem searchHash_le_length (l : List Nat) (hash : Nat) : searchHash l hash ≤ l.length :=
  (searchLoop_bounds _ l.length 0 l.length (Nat.zero_le _)).2

/-- A search whose predicate is defined on `[0, n)` never fails and never runs out of
iterations: it returns what the unchecked search returns. -/
theorem searchLoopChecked_eq (f : Nat → Bool) (g : Nat → Option Bool) (n : Nat)
    (hg : ∀ k, k < n → g k = some (f k)) :
    ∀ fuel i j, j - i ≤ fuel → j ≤ n →
      searchLoopChecked g fuel i j = some (searchLoop f fuel i j) := by
  intro fuel
  induction fuel with
  | zero =>
    intro i j h _
    have hij : ¬ i < j := by omega
    simp [searchLoopChecked, searchLoop, hij]
  | succ fuel ih =>
    intro i j h hjn
    unfold searchLoopChecked searchLoop
    by_cases hlt : i < j
    · simp only [hlt, if_true]
      rw [hg ((i + j) / 2) (by omega)]
      dsimp only
      by_cases hf : f ((i + j) / 2) = true
      · simp only [hf, Bool.not_true, Bool.false_eq_true, if_false]
        exact ih _ _ (by omega) (by omega)
      · simp only [Bool.not_eq_true] at hf
        simp only [hf, Bool.not_false, if_true]
        exact ih _ _ (by omega) hjn
    · simp only [hlt, if_false]

theorem get?_eq_some_getD {l : List Nat} {k : Nat} (hk : k < l.length) :
    l.get? k = some (l.getD k 0) := by
  rw [List.getD_eq_getElem l 0 hk, List.get?_eq_getElem?, List.getElem?_eq_getElem hk]

theorem searchHashChecked_eq (l : List Nat) (hash : Nat) :
    searchHashChecked l hash = some (searchHash l hash) := by
  unfold searchHashChecked SearchChecked searchHash Search
  apply searchLoopChecked_eq _ _ l.length _ l.length 0 l.length (by omega) (le_refl _)
  intro k hk
  rw [get?_eq_some_getD hk]
  rfl

theorem GetNodeChecked_eq (ch : ConsistentHash) (key : String) :
    GetNodeChecked ch key = some (GetNode ch key) := by
  unfold GetNodeChecked GetNode
  by_cases h0 : ch.sortedHashes.length = 0
  · simp only [h0, if_true]
  · simp only [h0, if_false]
    rw [searchHashChecked_eq]
    dsimp only
    have hle := searchHash_le_length ch.sortedHashes (hashKey key)
    have hidx : (if searchHash ch.sortedHashes (hashKey key) = ch.sortedHashes.length then 0
        else searchHash ch.sortedHashes (hashKey key)) < ch.sortedHashes.length := by
      split <;> omega
    rw [get?_eq_some_getD hidx]
    rfl

theorem removeStepChecked_eq (node : String) (ch : ConsistentHash) (i : Nat) :
    removeStepChecked node ch i = some (removeStep node ch i) := by
  unfold removeStepChecked removeStep
  dsimp only
  rw [searchHashChecked_eq]
  dsimp only
  by_cases hlt : searchHash ch.sortedHashes (hashKey (virtualNodeKey node i))
      < ch.sortedHashes.length
  · rw [if_pos hlt, get?_eq_some_getD hlt]
    dsimp only
    by_cases heq : ch.sortedHashes.getD
        (searchHash ch.sortedHashes (hashKey (virtualNodeKey node i))) 0
        = hashKey (virtualNodeKey node i)
    · rw [if_pos heq, if_pos ⟨hlt, heq⟩]
      unfold spliceChecked
      rw [if_pos (by omega)]
    · rw [if_neg heq, if_neg (fun h => heq h.2)]
  · rw [if_neg hlt, if_neg (fun h => hlt h.1)]

theorem removeLoopChecked_eq (node : String) :
    ∀ (is : List Nat) (ch : ConsistentHash),
      removeLoopChecked node is ch = some (is.foldl (removeStep node) ch) := by
  intro is
  induction is with
  | nil => intro ch; rfl
  | cons i is ih =>
    intro ch
    unfold removeLoopChecked
    rw [removeStepChecked_eq]
    exact ih _

/-- C20. For every ring state, with `sortedHashes` of any content, sorted or not, every key
and every node, no slice access of `GetNode` (`sortedHashes[idx]` after the wrap-around, and
the reads of the search) or of `RemoveNode` (`sortedHashes[index]`, the splice
`sortedHashes[:index] ++ sortedHashes[index+1:]`, and the reads of the search) is out of
range: the bounds-checked operations never fail, and they return what `GetNode` and
`RemoveNode` return. -/
theorem index_safety (ch : ConsistentHash) (key node : String) :
    GetNodeChecked ch key = some (GetNode ch key) ∧
      RemoveNodeChecked ch node = some (RemoveNode ch node) ∧
      (ch.sortedHashes ≠ [] →
        resolveIndex ch.sortedHashes (hashKey key) < ch.sortedHashes.length) :=
  ⟨GetNodeChecked_eq ch key, removeLoopChecked_eq node _ ch, fun hne => by
    have hpos : 0 < ch.sortedHashes.length := List.length_pos.mpr hne
    have hle := searchHash_le_length ch.sortedHashes (hashKey key)
    unfold resolveIndex
    dsimp only
    split <;> omega⟩

/-- C20 at an unsorted slice with a repeated element. -/
theorem index_safety_unsorted :
    GetNodeChecked { hashCircle := fun _ => none, sortedHashes := [7, 3, 9, 3, 1], replicas := 2 }
        "Key1" = some "" ∧
    (RemoveNodeChecked
        { hashCircle := fun _ => none, sortedHashes := [7, 3, 9, 3, 1], replicas := 2 }
        "Server1").isSome = true := by
  decide

end ConsistentHashing
